import Mathlib

/-!
Verification development for the Eco-Friendly ML-Enhanced CI/CD pipeline
optimizers. Shallow embedding of `src/DE_optimizer/differential_evolution.py`
and `src/mbo_optimizer/optimizer.py`. Python floats are modelled by `ℚ`;
randomness and network responses are passed in as explicit oracle functions,
so theorems quantify over every possible draw/response stream. Exceptions
(`random.sample` raising, `np.argmin` on an empty list) are modelled by
`Except`, where the error value also records how many objective evaluations
had been performed when the exception was raised.
-/

namespace EcoCI

/-! ## Embedding of src/DE_optimizer/differential_evolution.py -/

/-- Scoring function `evaluate_cicd`: `build_time + resource_penalty` where
`build_time = 500/cpu + mem/500 + rep*1.5` and
`resource_penalty = cpu*2 + mem/800`; the fourth component (parallel jobs)
is unpacked but unused by the formula. -/
def evaluate_cicd (config : List ℚ) : ℚ :=
  let cpu := config.getD 0 0
  let mem := config.getD 1 0
  let rep := config.getD 2 0
  (500 / cpu + mem / 500 + rep * (3 / 2)) + (cpu * 2 + mem / 800)

/-- The module-level `bounds` list: CPU cores, memory MB, replicas,
parallel jobs. -/
def bounds : List (ℚ × ℚ) := [(1 / 10, 2), (256, 4096), (1, 10), (1, 5)]

/-- `np.clip(x, lo, hi) = np.minimum(np.maximum(x, lo), hi)`. -/
def npClip (x lo hi : ℚ) : ℚ := min (max x lo) hi

/-- Python 3 `round` on an exact value: nearest integer, ties to even. -/
def pyRound (x : ℚ) : ℤ :=
  if x - ⌊x⌋ < 1 / 2 then ⌊x⌋
  else if x - ⌊x⌋ > 1 / 2 then ⌊x⌋ + 1
  else if ⌊x⌋ % 2 = 0 then ⌊x⌋ else ⌊x⌋ + 1

/-- The random draws consumed by one inner-loop body of
`differential_evolution`: the three indices returned by
`random.sample(candidates, 3)`, the forced crossover dimension
`R = random.randint(0, dim-1)`, and the per-dimension `random.random()`
draws compared against `CR`. -/
structure DEChoice where
  a : ℕ
  b : ℕ
  c : ℕ
  R : ℕ
  cross : List ℚ

/-- The clamping pass `for j in range(dim): mutant[j] = np.clip(mutant[j],
bounds[j][0], bounds[j][1])`, as an operation on a raw value vector. -/
def clampVec (bs : List (ℚ × ℚ)) (v : List ℚ) : List ℚ :=
  (List.range bs.length).map fun j =>
    npClip (v.getD j 0) (bs.getD j (0, 0)).1 (bs.getD j (0, 0)).2

/-- Mutant vector `x1[j] + F*(x2[j] - x3[j])`, then clamped per dimension
into bounds by `np.clip`. -/
def deMutant (bs : List (ℚ × ℚ)) (F : ℚ) (x1 x2 x3 : List ℚ) : List ℚ :=
  clampVec bs ((List.range bs.length).map fun j =>
    x1.getD j 0 + F * (x2.getD j 0 - x3.getD j 0))

/-- `trial[2] = int(round(trial[2]))` followed by
`trial[3] = int(round(trial[3]))`. -/
def roundInts (t : List ℚ) : List ℚ :=
  let t2 := t.set 2 ((pyRound (t.getD 2 0) : ℤ) : ℚ)
  t2.set 3 ((pyRound (t2.getD 3 0) : ℤ) : ℚ)

/-- Crossover of mutant and incumbent `population[i]` (dimension `j` taken
from the mutant when `random.random() < CR` or `j == R`), then the
integer dimensions 2 and 3 are rounded. -/
def deTrial (bs : List (ℚ × ℚ)) (F CR : ℚ) (ch : DEChoice)
    (pop : List (List ℚ)) (i : ℕ) : List ℚ :=
  let m := deMutant bs F (pop.getD ch.a []) (pop.getD ch.b []) (pop.getD ch.c [])
  let xi := pop.getD i []
  let t := (List.range bs.length).map fun j =>
    if ch.cross.getD j 1 < CR ∨ j = ch.R then m.getD j 0 else xi.getD j 0
  roundInts t

/-- The mutable state of a `differential_evolution` run: the population,
its fitness list, and the ghost list of every objective score evaluated so
far (in evaluation order); `observed.length` counts evaluations. -/
structure DEState where
  pop : List (List ℚ)
  fit : List ℚ
  observed : List ℚ

/-- One inner-loop body of `differential_evolution` at population index `i`.
`random.sample(candidates, 3)` raises `ValueError` when
`len(candidates) = pop_size - 1 < 3`; the error records how many objective
evaluations had been performed at that point. Otherwise the trial is built
and evaluated, and it replaces the incumbent (values and fitness) exactly
when its score is strictly smaller. -/
def deStep (bs : List (ℚ × ℚ)) (popSize : ℕ) (F CR : ℚ) (ch : DEChoice)
    (i : ℕ) (s : DEState) : Except (String × ℕ) DEState :=
  if popSize - 1 < 3 then
    .error ("Sample larger than population or is negative", s.observed.length)
  else
    let trial := deTrial bs F CR ch s.pop i
    let tf := evaluate_cicd trial
    if tf < s.fit.getD i 0 then
      .ok ⟨s.pop.set i trial, s.fit.set i tf, s.observed ++ [tf]⟩
    else
      .ok ⟨s.pop, s.fit, s.observed ++ [tf]⟩

/-- One generation: the inner loop `for i in range(pop_size)`. -/
def deGen (bs : List (ℚ × ℚ)) (popSize : ℕ) (F CR : ℚ) (ch : ℕ → DEChoice)
    (s : DEState) : Except (String × ℕ) DEState :=
  (List.range popSize).foldlM (fun s i => deStep bs popSize F CR (ch i) i s) s

/-- Initial population: every dimension, including the integer-kind ones,
is drawn by `random.uniform(bounds[i][0], bounds[i][1])`; the oracle `init`
supplies the draw for member `k`, dimension `j`. -/
def deInitPop (bs : List (ℚ × ℚ)) (popSize : ℕ) (init : ℕ → ℕ → ℚ) :
    List (List ℚ) :=
  (List.range popSize).map fun k => (List.range bs.length).map fun j => init k j

/-- State after initialization: the whole initial population is evaluated
(`fitness = [evaluate_cicd(ind) for ind in population]`), so all its scores
are observed. -/
def deInit (bs : List (ℚ × ℚ)) (popSize : ℕ) (init : ℕ → ℕ → ℚ) : DEState :=
  let pop := deInitPop bs popSize init
  let fit := pop.map evaluate_cicd
  ⟨pop, fit, fit⟩

/-- State after `t` generations (`for iteration in range(max_iter)`),
starting from state `s`; `chooser g i` supplies the random draws of
generation `g`, index `i`. -/
def deGens (bs : List (ℚ × ℚ)) (popSize : ℕ) (F CR : ℚ)
    (chooser : ℕ → ℕ → DEChoice) (t : ℕ) (s : DEState) :
    Except (String × ℕ) DEState :=
  (List.range t).foldlM (fun s g => deGen bs popSize F CR (chooser g) s) s

/-- `np.argmin`: index of the first occurrence of the minimum value;
`none` on an empty list (numpy raises `ValueError` there). -/
def npArgmin (l : List ℚ) : Option ℕ :=
  match l.min? with
  | none => none
  | some m => some (l.findIdx (fun x => x == m))

/-- The whole `differential_evolution(bounds, max_iter, pop_size, F, CR)`
run: initialization and evaluation of the initial population, `maxIter`
generations, then `best_index = np.argmin(fitness)` and the returned pair
`(population[best_index], fitness[best_index])`. -/
def differential_evolution (bs : List (ℚ × ℚ)) (maxIter popSize : ℕ)
    (F CR : ℚ) (init : ℕ → ℕ → ℚ) (chooser : ℕ → ℕ → DEChoice) :
    Except (String × ℕ) (List ℚ × ℚ) := do
  let s ← deGens bs popSize F CR chooser maxIter (deInit bs popSize init)
  match npArgmin s.fit with
  | none => .error ("attempt to get argmin of an empty sequence", s.observed.length)
  | some bi => .ok (s.pop.getD bi [], s.fit.getD bi 0)

/-! ## Embedding of src/mbo_optimizer/optimizer.py -/

/-- Default weight for build duration (`ALPHA = 0.7`). -/
def ALPHA : ℚ := 7 / 10

/-- Default weight for CPU (`BETA = 0.3`). -/
def BETA : ℚ := 3 / 10

/-- `POP_SIZE = 8`. -/
def POP_SIZE : ℕ := 8

/-- `MAX_ITERS = 12`. -/
def MAX_ITERS : ℕ := 12

/-- The metrics dict returned by `fetch_current_metrics`. -/
structure Metrics where
  build_duration : ℚ
  cpu : ℚ
  memory : ℚ

/-- One successful Prometheus response body: the result entries, each of
which either parses to a float (`float(entry["value"][1])`) or does not. -/
abbrev PromRes := List (Option ℚ)

/-- `prometheus_query`: up to 3 attempts; the first attempt that neither
raises nor reports a non-success status returns its result list; after 3
failed attempts the function returns `None`. The oracle `att` gives the
outcome of each attempt. -/
def prometheus_query (att : ℕ → Option PromRes) : Option PromRes :=
  match att 0 with
  | some r => some r
  | none =>
    match att 1 with
    | some r => some r
    | none =>
      match att 2 with
      | some r => some r
      | none => none

/-- `get_metric_scalar`: `None` when the query failed or returned an empty
result (`if not res`), else the mean of the entries that parse, or `None`
when none parse. -/
def get_metric_scalar (att : ℕ → Option PromRes) : Option ℚ :=
  match prometheus_query att with
  | none => none
  | some entries =>
    if entries.isEmpty then none
    else
      let vals := entries.filterMap id
      if vals.isEmpty then none else some (vals.sum / vals.length)

/-- Python `x or d` for an optional float `x`: `d` when `x` is `None` or
`0.0` (both falsy), else the value of `x`. -/
def pyOr (x : Option ℚ) (d : ℚ) : ℚ :=
  match x with
  | none => d
  | some v => if v = 0 then d else v

/-- The attempt oracles for the three telemetry queries issued by one call
of `fetch_current_metrics`. -/
structure EvalTelemetry where
  bd : ℕ → Option PromRes
  cpuq : ℕ → Option PromRes
  memq : ℕ → Option PromRes

/-- `fetch_current_metrics` with its documented fallback defaults
(`or 300.0`, `or 0.5`, `or 0.0`). -/
def fetch_current_metrics (t : EvalTelemetry) : Metrics :=
  { build_duration := pyOr (get_metric_scalar t.bd) 300
    cpu := pyOr (get_metric_scalar t.cpuq) (1 / 2)
    memory := pyOr (get_metric_scalar t.memq) 0 }

/-- `normalize(val, lo, hi)`. -/
def normalize (val lo hi : ℚ) : ℚ :=
  if hi = lo then 0 else (val - lo) / (hi - lo)

/-- The `hist_ranges` dict: a (lo, hi) pair for build duration and cpu. -/
structure HistRanges where
  bd_lo : ℚ
  bd_hi : ℚ
  cpu_lo : ℚ
  cpu_hi : ℚ

/-- `objective_from_metrics`: `ALPHA * dur_n + BETA * cpu_n`. -/
def objective_from_metrics (m : Metrics) (hr : HistRanges) : ℚ :=
  ALPHA * normalize m.build_duration hr.bd_lo hr.bd_hi
    + BETA * normalize m.cpu hr.cpu_lo hr.cpu_hi

/-- `hist_ranges = {"build_duration": (50, 900), "cpu": (0.01, 2.0)}`. -/
def hist_ranges : HistRanges := ⟨50, 900, 1 / 100, 2⟩

/-- An individual of `mbo_optimize`: the dict
`{"replicas": int, "cpu": float, "concurrency": int}`. -/
structure MBOInd where
  replicas : ℤ
  cpu : ℚ
  concurrency : ℤ
deriving DecidableEq

/-- `SPACE["replicas"] = (1, 4)`. -/
def SPACE_replicas : ℤ × ℤ := (1, 4)

/-- `SPACE["cpu_request"] = (0.1, 0.5)`. -/
def SPACE_cpu : ℚ × ℚ := (1 / 10, 1 / 2)

/-- `SPACE["concurrency"] = (1, 4)`. -/
def SPACE_concurrency : ℤ × ℤ := (1, 4)

/-- An evaluated triple `(ind, score, metrics)` as stored in `evaluated`. -/
abbrev EvalRec := MBOInd × ℚ × Metrics

/-- The sort/min key `lambda x: x[1]`. -/
def score (e : EvalRec) : ℚ := e.2.1

/-- Left fold of Python `min`: the current best is replaced only on a
strictly smaller key, so the first minimum wins. -/
def pyMinAux (b : EvalRec) : List EvalRec → EvalRec
  | [] => b
  | x :: xs => if score x < score b then pyMinAux x xs else pyMinAux b xs

/-- `min(evaluated, key=lambda x: x[1])`; `none` on an empty list. -/
def pyMinBy : List EvalRec → Option EvalRec
  | [] => none
  | x :: xs => some (pyMinAux x xs)

/-- One expensive evaluation: patch the deployment (external side effect,
not modelled further), sleep, fetch metrics with internal retries, reduce
them to a scalar via `objective_from_metrics`; `k` is the global index of
this evaluation, selecting its telemetry responses. -/
def mboEval (tele : ℕ → EvalTelemetry) (k : ℕ) (ind : MBOInd) : EvalRec :=
  let m := fetch_current_metrics (tele k)
  (ind, objective_from_metrics m hist_ranges, m)

/-- The random draws consumed when perturbing one parent:
`random.choice([-1, 0, 1])` for replicas, `random.uniform(-0.2, 0.2)` for
cpu, `random.choice([-1, 0, 1])` for concurrency. -/
structure MBOChoice where
  dr : ℤ
  jitter : ℚ
  dc : ℤ

/-- The replicas clamp `max(SPACE["replicas"][0], min(SPACE["replicas"][1], x))`. -/
def mboClampReplicas (x : ℤ) : ℤ :=
  max SPACE_replicas.1 (min SPACE_replicas.2 x)

/-- The cpu clamp `max(SPACE["cpu_request"][0], min(SPACE["cpu_request"][1], x))`. -/
def mboClampCpu (x : ℚ) : ℚ :=
  max SPACE_cpu.1 (min SPACE_cpu.2 x)

/-- The concurrency clamp `max(SPACE["concurrency"][0], min(SPACE["concurrency"][1], x))`. -/
def mboClampConcurrency (x : ℤ) : ℤ :=
  max SPACE_concurrency.1 (min SPACE_concurrency.2 x)

/-- Local perturbation of one parent, each dimension clamped into `SPACE`
by `max(lo, min(hi, value))`. -/
def mboPerturb (ch : MBOChoice) (ind : MBOInd) : MBOInd :=
  { replicas := mboClampReplicas (ind.replicas + ch.dr)
    cpu := mboClampCpu (ind.cpu * (1 + ch.jitter))
    concurrency := mboClampConcurrency (ind.concurrency + ch.dc) }

/-- `combined.sort(key=lambda x: x[1])`: Python `list.sort` is a stable
merge sort, so the stable `List.mergeSort` with the same key is its
embedding. -/
def sortByScore (l : List EvalRec) : List EvalRec :=
  l.mergeSort fun a b => decide (score a ≤ score b)

/-- The mutable state of an `mbo_optimize` run: the kept `evaluated` list,
the global `best` triple, the number of evaluations performed so far
(indexing the telemetry oracle), and the ghost list of every score
evaluated so far. -/
structure MBOState where
  evaluated : List EvalRec
  best : EvalRec
  cnt : ℕ
  observed : List ℚ

/-- Placeholder triple used as the default of total list indexing in spots
where the Python code indexes a list that is provably nonempty
(`POP_SIZE = 8 > 0`). -/
def defaultRec : EvalRec := (⟨1, 0, 1⟩, 0, ⟨0, 0, 0⟩)

/-- Initialization of `mbo_optimize`: draw `POP_SIZE` individuals
(`initO k` supplies the randint/uniform/randint draws of member `k`),
evaluate them all sequentially, and set
`best = min(evaluated, key=lambda x: x[1])`. -/
def mboInitState (initO : ℕ → MBOInd) (tele : ℕ → EvalTelemetry) : MBOState :=
  let pop := (List.range POP_SIZE).map initO
  let evaluated := pop.enum.map fun p => mboEval tele p.1 p.2
  let best := (pyMinBy evaluated).getD defaultRec
  ⟨evaluated, best, POP_SIZE, evaluated.map score⟩

/-- One generation of `mbo_optimize`: perturb every current member,
evaluate all offspring, merge parents and offspring, stable-sort ascending
by score, truncate to `POP_SIZE`, and update `best` when
`evaluated[0][1] < best[1]` (strict improvement). -/
def mboGen (perturbO : ℕ → MBOChoice) (tele : ℕ → EvalTelemetry)
    (s : MBOState) : MBOState :=
  let new_pop := s.evaluated.enum.map fun p => mboPerturb (perturbO p.1) p.2.1
  let new_evaluated := new_pop.enum.map fun p => mboEval tele (s.cnt + p.1) p.2
  let combined := s.evaluated ++ new_evaluated
  let sorted := sortByScore combined
  let kept := sorted.take POP_SIZE
  let top := kept.getD 0 defaultRec
  ⟨kept, if score top < score s.best then top else s.best,
    s.cnt + new_evaluated.length, s.observed ++ new_evaluated.map score⟩

/-- State after `t` generations of `mbo_optimize` (the loop
`for it in range(MAX_ITERS)`), starting from the initialized state;
`perturbO g j` supplies the perturbation draws of generation `g`,
member `j`. -/
def mboGens (initO : ℕ → MBOInd) (perturbO : ℕ → ℕ → MBOChoice)
    (tele : ℕ → EvalTelemetry) (t : ℕ) : MBOState :=
  (List.range t).foldl (fun s g => mboGen (perturbO g) tele s)
    (mboInitState initO tele)

/-- The whole `mbo_optimize()` run: initialization, `MAX_ITERS`
generations, then `return best`. -/
def mbo_optimize (initO : ℕ → MBOInd) (perturbO : ℕ → ℕ → MBOChoice)
    (tele : ℕ → EvalTelemetry) : EvalRec :=
  (mboGens initO perturbO tele MAX_ITERS).best

/-! ## Generic list helper lemmas -/

theorem getD_map_range {α : Type} (f : ℕ → α) {n j : ℕ} (d : α) (hj : j < n) :
    ((List.range n).map f).getD j d = f j := by
  rw [List.getD_eq_getElem?_getD, List.getElem?_map, List.getElem?_range hj]
  rfl

theorem getD_of_lt {α : Type} (l : List α) {j : ℕ} (d : α) (hj : j < l.length) :
    l.getD j d = l[j] := by
  rw [List.getD_eq_getElem?_getD, List.getElem?_eq_getElem hj]
  rfl

theorem mem_set_self {α : Type} {l : List α} {i : ℕ} (v : α) (hi : i < l.length) :
    v ∈ l.set i v := by
  have h : i < (l.set i v).length := by simpa using hi
  have h2 : (l.set i v)[i] = v := List.getElem_set_self h
  have h3 := List.getElem_mem h
  rwa [h2] at h3

theorem exists_mem_set_le {l : List ℚ} {i : ℕ} {v : ℚ} (hi : i < l.length)
    (hv : v ≤ l[i]) : ∀ x ∈ l, ∃ y ∈ l.set i v, y ≤ x := by
  intro x hx
  obtain ⟨j, hj, rfl⟩ := List.mem_iff_getElem.mp hx
  by_cases hij : j = i
  · exact ⟨v, mem_set_self v hi, hij ▸ hv⟩
  · refine ⟨l[j], ?_, le_refl _⟩
    have hj' : j < (l.set i v).length := by simpa using hj
    have : (l.set i v)[j] = l[j] := List.getElem_set_ne (Ne.symm hij) _
    exact this ▸ List.getElem_mem hj'

/-- Preservation of a predicate along a `foldlM` in the `Except` monad. -/
theorem foldlM_ok_preserves {σ ε α : Type} {f : σ → α → Except ε σ}
    (P : σ → Prop) :
    ∀ (l : List α), (∀ s a, a ∈ l → ∀ s', f s a = .ok s' → P s → P s') →
      ∀ s s', l.foldlM f s = .ok s' → P s → P s'
  | [], _, s, s', h, hP => by
    simp only [List.foldlM_nil] at h
    cases h
    exact hP
  | a :: l, hf, s, s', h, hP => by
    simp only [List.foldlM_cons] at h
    cases hfa : f s a with
    | error e =>
      rw [hfa] at h
      exact absurd (show (Except.error e : Except ε σ) = Except.ok s' from h)
        (by simp)
    | ok s1 =>
      rw [hfa] at h
      have h1 : l.foldlM f s1 = .ok s' := h
      exact foldlM_ok_preserves P l (fun s a ha => hf s a (List.mem_cons_of_mem _ ha))
        s1 s' h1 (hf s a (List.mem_cons_self _ _) s1 hfa hP)

/-- A reflexive transitive relation holding across each `foldlM` step holds
from the initial to the final state. -/
theorem foldlM_ok_rel {σ ε α : Type} {f : σ → α → Except ε σ}
    (R : σ → σ → Prop) (hrefl : ∀ s, R s s)
    (htrans : ∀ s1 s2 s3, R s1 s2 → R s2 s3 → R s1 s3) :
    ∀ (l : List α), (∀ s a, a ∈ l → ∀ s', f s a = .ok s' → R s s') →
      ∀ s s', l.foldlM f s = .ok s' → R s s'
  | [], _, s, s', h => by
    simp only [List.foldlM_nil] at h
    cases h
    exact hrefl s
  | a :: l, hf, s, s', h => by
    simp only [List.foldlM_cons] at h
    cases hfa : f s a with
    | error e =>
      rw [hfa] at h
      exact absurd (show (Except.error e : Except ε σ) = Except.ok s' from h)
        (by simp)
    | ok s1 =>
      rw [hfa] at h
      have h1 : l.foldlM f s1 = .ok s' := h
      exact htrans s s1 s' (hf s a (List.mem_cons_self _ _) s1 hfa)
        (foldlM_ok_rel R hrefl htrans l
          (fun s a ha => hf s a (List.mem_cons_of_mem _ ha)) s1 s' h1)

/-- If every step of a `foldlM` in the `Except` monad succeeds, the fold
succeeds. -/
theorem foldlM_ok_total {σ ε α : Type} {f : σ → α → Except ε σ} :
    ∀ (l : List α), (∀ s a, a ∈ l → ∃ s', f s a = .ok s') →
      ∀ s, ∃ s', l.foldlM f s = .ok s'
  | [], _, s => ⟨s, rfl⟩
  | a :: l, hf, s => by
    obtain ⟨s1, h1⟩ := hf s a (List.mem_cons_self _ _)
    obtain ⟨s', h'⟩ := foldlM_ok_total l
      (fun s a ha => hf s a (List.mem_cons_of_mem _ ha)) s1
    exact ⟨s', by simp only [List.foldlM_cons, h1]; exact h'⟩

/-! ## Minimum and argmin helper lemmas -/

theorem qmin?_mem {l : List ℚ} {m : ℚ} (h : l.min? = some m) : m ∈ l :=
  List.min?_mem (fun a b => min_choice a b) h

theorem qmin?_le {l : List ℚ} {m : ℚ} (h : l.min? = some m) :
    ∀ b ∈ l, m ≤ b := fun b hb =>
  (List.le_min?_iff (fun _ _ _ => le_min_iff) h).mp (le_refl m) b hb

theorem qmin?_isSome {l : List ℚ} (h : l ≠ []) : ∃ m, l.min? = some m := by
  cases hm : l.min? with
  | none => exact absurd (List.min?_eq_none_iff.mp hm) h
  | some m => exact ⟨m, rfl⟩

/-- `np.argmin` returns an index of the list holding its minimum value. -/
theorem npArgmin_spec {l : List ℚ} {m : ℚ} (h : l.min? = some m) :
    ∃ bi, npArgmin l = some bi ∧ bi < l.length ∧ l.getD bi 0 = m := by
  have hmem : m ∈ l := qmin?_mem h
  have hex : ∃ x ∈ l, (x == m) = true := ⟨m, hmem, beq_self_eq_true m⟩
  have hlt : l.findIdx (fun x => x == m) < l.length :=
    List.findIdx_lt_length_of_exists hex
  refine ⟨l.findIdx (fun x => x == m), ?_, hlt, ?_⟩
  · simp [npArgmin, h]
  · have := List.findIdx_getElem (w := hlt) (p := fun x : ℚ => x == m)
    rw [getD_of_lt l 0 hlt]
    exact eq_of_beq this

/-! ## DE run invariants -/

/-- Reachability invariant of a DE run: the population and fitness lists
keep the configured size, every fitness entry is an observed score, and
every observed score is dominated by some current fitness entry. -/
def DEInv (popSize : ℕ) (s : DEState) : Prop :=
  s.pop.length = popSize ∧ s.fit.length = popSize ∧
    (∀ x ∈ s.fit, x ∈ s.observed) ∧
    (∀ o ∈ s.observed, ∃ x ∈ s.fit, x ≤ o)

/-- Step relation carried across generations: the invariant is preserved
and (given the invariant) the new fitness list dominates the old one. -/
def DRel (popSize : ℕ) (s s' : DEState) : Prop :=
  (DEInv popSize s → DEInv popSize s') ∧
    (DEInv popSize s → ∀ x ∈ s.fit, ∃ y ∈ s'.fit, y ≤ x)

theorem DRel_refl (popSize : ℕ) (s : DEState) : DRel popSize s s :=
  ⟨id, fun _ x hx => ⟨x, hx, le_refl x⟩⟩

theorem DRel_trans (popSize : ℕ) (s1 s2 s3 : DEState)
    (h12 : DRel popSize s1 s2) (h23 : DRel popSize s2 s3) :
    DRel popSize s1 s3 := by
  refine ⟨fun h => h23.1 (h12.1 h), fun h x hx => ?_⟩
  obtain ⟨y, hy, hyx⟩ := h12.2 h x hx
  obtain ⟨z, hz, hzy⟩ := h23.2 (h12.1 h) y hy
  exact ⟨z, hz, le_trans hzy hyx⟩

theorem deStep_drel {bs : List (ℚ × ℚ)} {popSize : ℕ} {F CR : ℚ}
    {ch : DEChoice} {i : ℕ} {s s' : DEState} (hi : i < popSize)
    (h : deStep bs popSize F CR ch i s = .ok s') : DRel popSize s s' := by
  simp only [deStep] at h
  split at h
  · exact absurd h (by simp)
  · split at h
    case isTrue hlt =>
      cases h
      constructor
      · rintro ⟨hp, hf, hA, hB⟩
        have hif : i < s.fit.length := hf ▸ hi
        have hvle : evaluate_cicd (deTrial bs F CR ch s.pop i) ≤ s.fit[i] := by
          rw [← getD_of_lt s.fit 0 hif]
          exact le_of_lt hlt
        refine ⟨by simpa using hp, by simpa using hf, ?_, ?_⟩
        · intro x hx
          rcases List.mem_or_eq_of_mem_set hx with hx' | rfl
          · exact List.mem_append_left _ (hA x hx')
          · exact List.mem_append_right _ (List.mem_singleton_self _)
        · intro o ho
          rcases List.mem_append.mp ho with ho' | ho'
          · obtain ⟨x, hx, hxo⟩ := hB o ho'
            obtain ⟨y, hy, hyx⟩ := exists_mem_set_le hif hvle x hx
            exact ⟨y, hy, le_trans hyx hxo⟩
          · rw [List.mem_singleton] at ho'
            exact ⟨_, mem_set_self _ hif, le_of_eq ho'.symm⟩
      · rintro ⟨hp, hf, hA, hB⟩ x hx
        have hif : i < s.fit.length := hf ▸ hi
        have hvle : evaluate_cicd (deTrial bs F CR ch s.pop i) ≤ s.fit[i] := by
          rw [← getD_of_lt s.fit 0 hif]
          exact le_of_lt hlt
        exact exists_mem_set_le hif hvle x hx
    case isFalse hge =>
      cases h
      constructor
      · rintro ⟨hp, hf, hA, hB⟩
        have hif : i < s.fit.length := hf ▸ hi
        refine ⟨hp, hf, ?_, ?_⟩
        · intro x hx
          exact List.mem_append_left _ (hA x hx)
        · intro o ho
          rcases List.mem_append.mp ho with ho' | ho'
          · exact hB o ho'
          · rw [List.mem_singleton] at ho'
            refine ⟨s.fit.getD i 0, ?_, ?_⟩
            · rw [getD_of_lt s.fit 0 hif]
              exact List.getElem_mem hif
            · rw [ho']
              exact le_of_not_lt hge
      · rintro _ x hx
        exact ⟨x, hx, le_refl x⟩

theorem deGen_drel {bs : List (ℚ × ℚ)} {popSize : ℕ} {F CR : ℚ}
    {ch : ℕ → DEChoice} {s s' : DEState}
    (h : deGen bs popSize F CR ch s = .ok s') : DRel popSize s s' := by
  refine foldlM_ok_rel (DRel popSize) (DRel_refl popSize) (DRel_trans popSize)
    (List.range popSize) ?_ s s' h
  intro s a ha s' hstep
  exact deStep_drel (List.mem_range.mp ha) hstep

theorem deGens_drel {bs : List (ℚ × ℚ)} {popSize : ℕ} {F CR : ℚ}
    {chooser : ℕ → ℕ → DEChoice} {t : ℕ} {s s' : DEState}
    (h : deGens bs popSize F CR chooser t s = .ok s') : DRel popSize s s' := by
  refine foldlM_ok_rel (DRel popSize) (DRel_refl popSize) (DRel_trans popSize)
    (List.range t) ?_ s s' h
  intro s a _ s' hstep
  exact deGen_drel hstep

theorem deInit_inv (bs : List (ℚ × ℚ)) (popSize : ℕ) (init : ℕ → ℕ → ℚ) :
    DEInv popSize (deInit bs popSize init) := by
  refine ⟨by simp [deInit, deInitPop], by simp [deInit, deInitPop], ?_, ?_⟩
  · intro x hx
    simpa [deInit] using hx
  · intro o ho
    exact ⟨o, by simpa [deInit] using ho, le_refl o⟩

/-- Domination of fitness lists entails comparison of their minima. -/
theorem min?_le_of_dom {l l' : List ℚ} {m m' : ℚ}
    (hdom : ∀ x ∈ l, ∃ y ∈ l', y ≤ x)
    (hm : l.min? = some m) (hm' : l'.min? = some m') : m' ≤ m := by
  obtain ⟨y, hy, hyx⟩ := hdom m (qmin?_mem hm)
  exact le_trans (qmin?_le hm' y hy) hyx

/-! ## pyRound helper lemmas -/

theorem pyRound_cases (x : ℚ) : pyRound x = ⌊x⌋ ∨ pyRound x = ⌊x⌋ + 1 := by
  unfold pyRound
  split
  · exact Or.inl rfl
  · split
    · exact Or.inr rfl
    · split
      · exact Or.inl rfl
      · exact Or.inr rfl

/-- Rounding a value lying between two integer bounds stays between them. -/
theorem pyRound_bounds {lo hi : ℤ} {x : ℚ} (h1 : (lo : ℚ) ≤ x)
    (h2 : x ≤ (hi : ℚ)) :
    (lo : ℚ) ≤ (pyRound x : ℚ) ∧ (pyRound x : ℚ) ≤ (hi : ℚ) := by
  have hfl : lo ≤ ⌊x⌋ := Int.le_floor.mpr h1
  have hfu : ⌊x⌋ ≤ hi := by
    have := Int.floor_le_floor h2
    simpa using this
  constructor
  · rcases pyRound_cases x with h | h <;> rw [h] <;> push_cast <;>
      [exact_mod_cast hfl; exact_mod_cast le_trans hfl (le_add_of_nonneg_right zero_le_one)]
  · rcases pyRound_cases x with h | h
    · rw [h]; exact_mod_cast hfu
    · rw [h]
      have hx2 : x - ⌊x⌋ ≥ 1 / 2 := by
        by_contra hc
        push_neg at hc
        unfold pyRound at h
        rw [if_pos hc] at h
        omega
      have hne : ⌊x⌋ ≠ hi := by
        intro heq
        rw [heq] at hx2
        have : x ≥ (hi : ℚ) + 1 / 2 := by linarith
        linarith
      have : ⌊x⌋ + 1 ≤ hi := by omega
      exact_mod_cast this

/-! ## Further getD and clamp helper lemmas -/

theorem getD_set_ne {α : Type} (l : List α) {i j : ℕ} (hij : i ≠ j)
    (a d : α) : (l.set i a).getD j d = l.getD j d := by
  rw [List.getD_eq_getElem?_getD, List.getElem?_set_ne hij,
    List.getD_eq_getElem?_getD]

theorem getD_set_self {α : Type} (l : List α) {i : ℕ} (hi : i < l.length)
    (a d : α) : (l.set i a).getD i d = a := by
  rw [List.getD_eq_getElem?_getD, List.getElem?_set_self hi]
  rfl

theorem npClip_bounds {x lo hi : ℚ} (h : lo ≤ hi) :
    lo ≤ npClip x lo hi ∧ npClip x lo hi ≤ hi := by
  unfold npClip
  constructor
  · exact le_min (le_max_right x lo) h
  · exact min_le_right _ _

theorem npClip_idem (x lo hi : ℚ) (h : lo ≤ hi) :
    npClip (npClip x lo hi) lo hi = npClip x lo hi := by
  have h1 : lo ≤ npClip x lo hi := (npClip_bounds h).1
  have h2 : npClip x lo hi ≤ hi := (npClip_bounds h).2
  calc npClip (npClip x lo hi) lo hi
      = min (max (npClip x lo hi) lo) hi := rfl
    _ = min (npClip x lo hi) hi := by rw [max_eq_left h1]
    _ = npClip x lo hi := min_eq_left h2

/-! ## DE failure and totality lemmas -/

theorem deStep_err {bs : List (ℚ × ℚ)} {popSize : ℕ} (F CR : ℚ)
    (ch : DEChoice) (i : ℕ) (s : DEState) (hps : popSize < 4) :
    deStep bs popSize F CR ch i s =
      .error ("Sample larger than population or is negative",
        s.observed.length) := by
  simp only [deStep]
  rw [if_pos (by omega : popSize - 1 < 3)]

theorem deStep_ok {bs : List (ℚ × ℚ)} {popSize : ℕ} (F CR : ℚ)
    (ch : DEChoice) (i : ℕ) (s : DEState) (hps : 4 ≤ popSize) :
    ∃ s', deStep bs popSize F CR ch i s = .ok s' := by
  simp only [deStep]
  rw [if_neg (by omega : ¬popSize - 1 < 3)]
  split
  · exact ⟨_, rfl⟩
  · exact ⟨_, rfl⟩

theorem deGen_err {bs : List (ℚ × ℚ)} {popSize : ℕ} (F CR : ℚ)
    (ch : ℕ → DEChoice) (s : DEState) (hps0 : 0 < popSize)
    (hps : popSize < 4) :
    deGen bs popSize F CR ch s =
      .error ("Sample larger than population or is negative",
        s.observed.length) := by
  obtain ⟨n, rfl⟩ := Nat.exists_eq_succ_of_ne_zero (Nat.pos_iff_ne_zero.mp hps0)
  rw [deGen, List.range_succ_eq_map, List.foldlM_cons,
    deStep_err F CR (ch 0) 0 s hps]
  rfl

theorem deGen_ok {bs : List (ℚ × ℚ)} {popSize : ℕ} (F CR : ℚ)
    (ch : ℕ → DEChoice) (s : DEState) (hps : 4 ≤ popSize) :
    ∃ s', deGen bs popSize F CR ch s = .ok s' :=
  foldlM_ok_total (List.range popSize)
    (fun s i _ => deStep_ok F CR (ch i) i s hps) s

theorem deGens_err {bs : List (ℚ × ℚ)} {popSize maxIter : ℕ} (F CR : ℚ)
    (chooser : ℕ → ℕ → DEChoice) (s : DEState) (hit : 0 < maxIter)
    (hps0 : 0 < popSize) (hps : popSize < 4) :
    deGens bs popSize F CR chooser maxIter s =
      .error ("Sample larger than population or is negative",
        s.observed.length) := by
  obtain ⟨m, rfl⟩ := Nat.exists_eq_succ_of_ne_zero (Nat.pos_iff_ne_zero.mp hit)
  rw [deGens, List.range_succ_eq_map, List.foldlM_cons,
    deGen_err F CR (chooser 0) s hps0 hps]
  rfl

theorem deGens_ok {bs : List (ℚ × ℚ)} {popSize maxIter : ℕ} (F CR : ℚ)
    (chooser : ℕ → ℕ → DEChoice) (s : DEState) (hps : 4 ≤ popSize) :
    ∃ s', deGens bs popSize F CR chooser maxIter s = .ok s' :=
  foldlM_ok_total (List.range maxIter)
    (fun s g _ => deGen_ok F CR (chooser g) s hps) s

theorem deInit_observed_length (bs : List (ℚ × ℚ)) (popSize : ℕ)
    (init : ℕ → ℕ → ℚ) :
    (deInit bs popSize init).observed.length = popSize := by
  simp [deInit, deInitPop]

/-! ## DE bounds invariant (for the concrete module-level bounds) -/

/-- A value vector lies in the module-level `bounds`: four entries, each
within its descriptor's closed interval. -/
def InBounds (v : List ℚ) : Prop :=
  v.length = 4 ∧ ∀ j < 4,
    (bounds.getD j (0, 0)).1 ≤ v.getD j 0 ∧
      v.getD j 0 ≤ (bounds.getD j (0, 0)).2

/-- Each descriptor of the module-level `bounds` is ordered. -/
theorem bounds_ordered : ∀ j < 4,
    (bounds.getD j (0, 0)).1 ≤ (bounds.getD j (0, 0)).2 := by
  intro j hj
  interval_cases j <;> simp [bounds] <;> norm_num

theorem deMutant_inbounds (F : ℚ) (x1 x2 x3 : List ℚ) :
    ∀ j < 4, (bounds.getD j (0, 0)).1 ≤ (deMutant bounds F x1 x2 x3).getD j 0 ∧
      (deMutant bounds F x1 x2 x3).getD j 0 ≤ (bounds.getD j (0, 0)).2 := by
  intro j hj
  have hlen : bounds.length = 4 := by simp [bounds]
  rw [deMutant, clampVec, getD_map_range _ 0 (by rw [hlen]; exact hj)]
  exact npClip_bounds (bounds_ordered j hj)

theorem roundInts_length (t : List ℚ) : (roundInts t).length = t.length := by
  simp [roundInts]

theorem roundInts_getD_ne (t : List ℚ) (j : ℕ) (hj2 : j ≠ 2) (hj3 : j ≠ 3) :
    (roundInts t).getD j 0 = t.getD j 0 := by
  simp only [roundInts]
  rw [getD_set_ne _ (fun h => hj3 h.symm), getD_set_ne _ (fun h => hj2 h.symm)]

theorem roundInts_getD2 (t : List ℚ) (h : 2 < t.length) :
    (roundInts t).getD 2 0 = ((pyRound (t.getD 2 0) : ℤ) : ℚ) := by
  simp only [roundInts]
  rw [getD_set_ne _ (by decide : (3 : ℕ) ≠ 2), getD_set_self t h]

theorem roundInts_getD3 (t : List ℚ) (h : 3 < t.length) :
    (roundInts t).getD 3 0 = ((pyRound (t.getD 3 0) : ℤ) : ℚ) := by
  simp only [roundInts]
  rw [getD_set_self _ (by simpa using h), getD_set_ne t (by decide : (2 : ℕ) ≠ 3)]

/-- Every trial vector produced from an in-bounds population is in bounds,
and its two integer-kind dimensions hold integers. -/
theorem deTrial_inbounds (F CR : ℚ) (ch : DEChoice) {pop : List (List ℚ)}
    {i : ℕ} (hpop : ∀ v ∈ pop, InBounds v) (hi : i < pop.length) :
    InBounds (deTrial bounds F CR ch pop i) ∧
      (∃ z : ℤ, (deTrial bounds F CR ch pop i).getD 2 0 = (z : ℚ)) ∧
      (∃ z : ℤ, (deTrial bounds F CR ch pop i).getD 3 0 = (z : ℚ)) := by
  have hxi : InBounds (pop.getD i []) := by
    have hmem : pop.getD i [] ∈ pop := by
      rw [getD_of_lt pop [] hi]
      exact List.getElem_mem hi
    exact hpop _ hmem
  have hblen : bounds.length = 4 := by simp [bounds]
  set t := (List.range bounds.length).map fun j =>
    if ch.cross.getD j 1 < CR ∨ j = ch.R then
      (deMutant bounds F (pop.getD ch.a []) (pop.getD ch.b [])
        (pop.getD ch.c [])).getD j 0
    else (pop.getD i []).getD j 0 with ht_def
  have hdt : deTrial bounds F CR ch pop i = roundInts t := rfl
  have htlen : t.length = 4 := by rw [ht_def]; simp [hblen]
  have ht : ∀ j, j < 4 →
      (bounds.getD j (0, 0)).1 ≤ t.getD j 0 ∧
        t.getD j 0 ≤ (bounds.getD j (0, 0)).2 := by
    intro j hj
    rw [ht_def, getD_map_range _ 0 (by rw [hblen]; exact hj)]
    split
    · exact deMutant_inbounds F _ _ _ j hj
    · exact hxi.2 j hj
  rw [hdt]
  have h2v := roundInts_getD2 t (by rw [htlen]; norm_num)
  have h3v := roundInts_getD3 t (by rw [htlen]; norm_num)
  refine ⟨⟨by rw [roundInts_length, htlen], ?_⟩,
    ⟨pyRound (t.getD 2 0), h2v⟩, ⟨pyRound (t.getD 3 0), h3v⟩⟩
  intro j hj
  interval_cases j
  · rw [roundInts_getD_ne t 0 (by decide) (by decide)]
    exact ht 0 (by norm_num)
  · rw [roundInts_getD_ne t 1 (by decide) (by decide)]
    exact ht 1 (by norm_num)
  · rw [h2v]
    have hb : bounds.getD 2 (0, 0) = (1, 10) := by simp [bounds]
    have h2 := ht 2 (by norm_num)
    rw [hb] at h2 ⊢
    have hres := @pyRound_bounds 1 10 (t.getD 2 0)
      (by push_cast; exact h2.1) (by push_cast; exact h2.2)
    constructor
    · have := hres.1
      push_cast at this ⊢
      exact this
    · have := hres.2
      push_cast at this ⊢
      exact this
  · rw [h3v]
    have hb : bounds.getD 3 (0, 0) = (1, 5) := by simp [bounds]
    have h3 := ht 3 (by norm_num)
    rw [hb] at h3 ⊢
    have hres := @pyRound_bounds 1 5 (t.getD 3 0)
      (by push_cast; exact h3.1) (by push_cast; exact h3.2)
    constructor
    · have := hres.1
      push_cast at this ⊢
      exact this
    · have := hres.2
      push_cast at this ⊢
      exact this

/-- Initial draws made by `random.uniform` respect the bounds. -/
def ValidInit (init : ℕ → ℕ → ℚ) : Prop :=
  ∀ k j, j < 4 → (bounds.getD j (0, 0)).1 ≤ init k j ∧
    init k j ≤ (bounds.getD j (0, 0)).2

theorem deInit_popinb {init : ℕ → ℕ → ℚ} (hvi : ValidInit init) (popSize : ℕ) :
    ∀ v ∈ (deInit bounds popSize init).pop, InBounds v := by
  intro v hv
  simp only [deInit, deInitPop] at hv
  obtain ⟨k, hk, rfl⟩ := List.mem_map.mp hv
  have hblen : bounds.length = 4 := by simp [bounds]
  constructor
  · simp [hblen]
  · intro j hj
    rw [getD_map_range _ 0 (by rw [hblen]; exact hj)]
    exact hvi k j hj

theorem deStep_popinb {popSize : ℕ} {F CR : ℚ} {ch : DEChoice} {i : ℕ}
    {s s' : DEState} (hi : i < popSize)
    (h : deStep bounds popSize F CR ch i s = .ok s')
    (hlen : s.pop.length = popSize) (hp : ∀ v ∈ s.pop, InBounds v) :
    ∀ v ∈ s'.pop, InBounds v := by
  simp only [deStep] at h
  split at h
  · exact absurd h (by simp)
  · split at h
    · cases h
      intro v hv
      rcases List.mem_or_eq_of_mem_set hv with hv' | rfl
      · exact hp v hv'
      · exact (deTrial_inbounds F CR ch hp (by omega)).1
    · cases h
      exact hp

theorem deGen_cinv {popSize : ℕ} {F CR : ℚ} {ch : ℕ → DEChoice}
    {s s' : DEState} (h : deGen bounds popSize F CR ch s = .ok s') :
    DEInv popSize s ∧ (∀ v ∈ s.pop, InBounds v) →
      DEInv popSize s' ∧ ∀ v ∈ s'.pop, InBounds v := by
  refine foldlM_ok_preserves
    (fun s => DEInv popSize s ∧ ∀ v ∈ s.pop, InBounds v)
    (List.range popSize) ?_ s s' h
  intro s a ha s' hstep hP
  have hi := List.mem_range.mp ha
  exact ⟨(deStep_drel hi hstep).1 hP.1,
    deStep_popinb hi hstep hP.1.1 hP.2⟩

theorem deGens_cinv {popSize t : ℕ} {F CR : ℚ} {chooser : ℕ → ℕ → DEChoice}
    {s s' : DEState} (h : deGens bounds popSize F CR chooser t s = .ok s') :
    DEInv popSize s ∧ (∀ v ∈ s.pop, InBounds v) →
      DEInv popSize s' ∧ ∀ v ∈ s'.pop, InBounds v := by
  refine foldlM_ok_preserves
    (fun s => DEInv popSize s ∧ ∀ v ∈ s.pop, InBounds v)
    (List.range t) ?_ s s' h
  intro s a _ s' hstep hP
  exact deGen_cinv hstep hP

/-! ## MBO run invariants -/

theorem pyMinAux_mem (b : EvalRec) (xs : List EvalRec) :
    pyMinAux b xs ∈ b :: xs := by
  induction xs generalizing b with
  | nil => simp [pyMinAux]
  | cons x xs ih =>
    rw [pyMinAux]
    split
    · exact List.mem_cons_of_mem b (ih x)
    · rcases List.mem_cons.mp (ih b) with h | h
      · rw [h]
        exact List.mem_cons_self _ _
      · exact List.mem_cons_of_mem b (List.mem_cons_of_mem x h)

theorem pyMinAux_le (b : EvalRec) (xs : List EvalRec) :
    score (pyMinAux b xs) ≤ score b ∧
      ∀ x ∈ xs, score (pyMinAux b xs) ≤ score x := by
  induction xs generalizing b with
  | nil => exact ⟨le_refl _, by simp⟩
  | cons x xs ih =>
    rw [pyMinAux]
    split
    case isTrue hlt =>
      obtain ⟨h1, h2⟩ := ih x
      refine ⟨le_trans h1 (le_of_lt hlt), ?_⟩
      intro y hy
      rcases List.mem_cons.mp hy with rfl | hy'
      · exact h1
      · exact h2 y hy'
    case isFalse hge =>
      obtain ⟨h1, h2⟩ := ih b
      refine ⟨h1, ?_⟩
      intro y hy
      rcases List.mem_cons.mp hy with rfl | hy'
      · exact le_trans h1 (le_of_not_lt hge)
      · exact h2 y hy'

theorem sortByScore_perm (l : List EvalRec) : List.Perm (sortByScore l) l :=
  List.mergeSort_perm l _

theorem sortByScore_pairwise (l : List EvalRec) :
    (sortByScore l).Pairwise fun a b => score a ≤ score b := by
  have htot : ∀ a b : EvalRec,
      (decide (score a ≤ score b) || decide (score b ≤ score a)) = true := by
    intro a b
    rcases le_total (score a) (score b) with h | h
    · simp [h]
    · simp [h]
  have htrans : ∀ a b c : EvalRec, decide (score a ≤ score b) = true →
      decide (score b ≤ score c) = true →
        decide (score a ≤ score c) = true :=
    fun a b c h1 h2 =>
      decide_eq_true (le_trans (of_decide_eq_true h1) (of_decide_eq_true h2))
  have h : (sortByScore l).Pairwise
      fun a b => decide (score a ≤ score b) = true :=
    List.sorted_mergeSort htrans htot l
  exact h.imp fun hab => of_decide_eq_true hab

theorem take_getD_zero {l : List EvalRec} {n : ℕ} (hn : 0 < n) :
    (l.take n).getD 0 defaultRec = l.getD 0 defaultRec := by
  cases l with
  | nil => simp
  | cons h t =>
    cases n with
    | zero => omega
    | succ m => simp

/-- The head of the sorted list has the least score of the original list. -/
theorem sortByScore_head_le {l : List EvalRec} {e : EvalRec} (he : e ∈ l) :
    score ((sortByScore l).getD 0 defaultRec) ≤ score e := by
  have hmem : e ∈ sortByScore l := (sortByScore_perm l).mem_iff.mpr he
  have hpw := sortByScore_pairwise l
  cases hs : sortByScore l with
  | nil => rw [hs] at hmem; cases hmem
  | cons h rest =>
    rw [hs] at hmem hpw
    rw [List.getD_cons_zero]
    rcases List.mem_cons.mp hmem with rfl | hmem'
    · exact le_refl _
    · exact (List.pairwise_cons.mp hpw).1 e hmem'

/-- Reachability invariant of an MBO run: the kept list has `POP_SIZE`
entries, each of their scores was observed, and the global best score is
an observed score dominating every observed score. -/
def MBOInv (s : MBOState) : Prop :=
  s.evaluated.length = POP_SIZE ∧
    (∀ e ∈ s.evaluated, score e ∈ s.observed) ∧
    score s.best ∈ s.observed ∧
    ∀ o ∈ s.observed, score s.best ≤ o

theorem mboInit_inv (initO : ℕ → MBOInd) (tele : ℕ → EvalTelemetry) :
    MBOInv (mboInitState initO tele) := by
  simp only [mboInitState]
  set E := (((List.range POP_SIZE).map initO).enum.map
    fun p => mboEval tele p.1 p.2) with hE
  have hlen : E.length = POP_SIZE := by simp [hE]
  have hne : E ≠ [] := by
    intro h
    rw [h] at hlen
    simp [POP_SIZE] at hlen
  obtain ⟨hd, tl, hcons⟩ := List.exists_cons_of_ne_nil hne
  have hbest : (pyMinBy E).getD defaultRec = pyMinAux hd tl := by
    rw [hcons, pyMinBy]
    rfl
  refine ⟨hlen, ?_, ?_, ?_⟩
  · intro e he
    exact List.mem_map_of_mem score he
  · rw [hbest]
    exact List.mem_map_of_mem score (by rw [hcons]; exact pyMinAux_mem hd tl)
  · intro o ho
    obtain ⟨e, he, rfl⟩ := List.mem_map.mp ho
    rw [hbest]
    rw [hcons] at he
    rcases List.mem_cons.mp he with heq | he'
    · rw [heq]
      exact (pyMinAux_le hd tl).1
    · exact (pyMinAux_le hd tl).2 e he'

theorem mboGen_inv (perturbO : ℕ → MBOChoice) (tele : ℕ → EvalTelemetry)
    {s : MBOState} (h : MBOInv s) : MBOInv (mboGen perturbO tele s) := by
  obtain ⟨hlen, hA, hBmem, hB⟩ := h
  simp only [mboGen]
  set new_eval := ((s.evaluated.enum.map
    fun p => mboPerturb (perturbO p.1) p.2.1).enum.map
      fun p => mboEval tele (s.cnt + p.1) p.2) with hne
  set combined := s.evaluated ++ new_eval with hcomb
  have hnew_len : new_eval.length = POP_SIZE := by simp [hne, hlen]
  have hcomb_len : combined.length = POP_SIZE + POP_SIZE := by
    simp [hcomb, hlen, hnew_len]
  have hsort_len : (sortByScore combined).length = POP_SIZE + POP_SIZE := by
    rw [sortByScore, List.length_mergeSort]
    exact hcomb_len
  have hkept_len : ((sortByScore combined).take POP_SIZE).length = POP_SIZE := by
    rw [List.length_take, hsort_len]
    omega
  have hpos : 0 < POP_SIZE := by decide
  have hkept_mem : ∀ e ∈ (sortByScore combined).take POP_SIZE, e ∈ combined := by
    intro e he
    exact (sortByScore_perm combined).mem_iff.mp
      ((List.take_sublist _ _).subset he)
  have hobs : ∀ e ∈ combined,
      score e ∈ s.observed ++ new_eval.map score := by
    intro e he
    rcases List.mem_append.mp he with he' | he'
    · exact List.mem_append_left _ (hA e he')
    · exact List.mem_append_right _ (List.mem_map_of_mem score he')
  have htop : ((sortByScore combined).take POP_SIZE).getD 0 defaultRec =
      (sortByScore combined).getD 0 defaultRec := take_getD_zero hpos
  have hkept_ne : (sortByScore combined).take POP_SIZE ≠ [] := by
    intro hnil
    rw [hnil] at hkept_len
    simp [POP_SIZE] at hkept_len
  have htop_mem : ((sortByScore combined).take POP_SIZE).getD 0 defaultRec ∈
      (sortByScore combined).take POP_SIZE := by
    obtain ⟨hd, tl, hcons⟩ := List.exists_cons_of_ne_nil hkept_ne
    rw [hcons, List.getD_cons_zero]
    exact List.mem_cons_self _ _
  refine ⟨hkept_len, ?_, ?_, ?_⟩
  · intro e he
    exact hobs e (hkept_mem e he)
  · split
    · exact hobs _ (hkept_mem _ htop_mem)
    · exact List.mem_append_left _ hBmem
  · intro o ho
    have hbest_le : ∀ e ∈ combined,
        score (if score (((sortByScore combined).take POP_SIZE).getD 0
            defaultRec) < score s.best
          then ((sortByScore combined).take POP_SIZE).getD 0 defaultRec
          else s.best) ≤ score e := by
      intro e he
      have hhead := sortByScore_head_le he
      rw [← htop] at hhead
      split
      · exact hhead
      case isFalse hnlt => exact le_trans (le_of_not_lt hnlt) hhead
    rcases List.mem_append.mp ho with ho' | ho'
    · have hle : score (if score (((sortByScore combined).take
          POP_SIZE).getD 0 defaultRec) < score s.best
            then ((sortByScore combined).take POP_SIZE).getD 0 defaultRec
            else s.best) ≤ score s.best := by
        split
        case isTrue hlt => exact le_of_lt hlt
        · exact le_refl _
      exact le_trans hle (hB o ho')
    · obtain ⟨e, he, rfl⟩ := List.mem_map.mp ho'
      exact hbest_le e (List.mem_append_right _ he)

theorem mboGens_succ (initO : ℕ → MBOInd) (perturbO : ℕ → ℕ → MBOChoice)
    (tele : ℕ → EvalTelemetry) (t : ℕ) :
    mboGens initO perturbO tele (t + 1) =
      mboGen (perturbO t) tele (mboGens initO perturbO tele t) := by
  simp [mboGens, List.range_succ]

theorem mboGens_inv (initO : ℕ → MBOInd) (perturbO : ℕ → ℕ → MBOChoice)
    (tele : ℕ → EvalTelemetry) (t : ℕ) :
    MBOInv (mboGens initO perturbO tele t) := by
  induction t with
  | zero => exact mboInit_inv initO tele
  | succ t ih =>
    rw [mboGens_succ]
    exact mboGen_inv _ _ ih

theorem mboGen_best_le (perturbO : ℕ → MBOChoice) (tele : ℕ → EvalTelemetry)
    (s : MBOState) : score (mboGen perturbO tele s).best ≤ score s.best := by
  simp only [mboGen]
  split
  case isTrue hlt => exact le_of_lt hlt
  · exact le_refl _

/-! ## Rounding at the half point -/

theorem pyRound_half (z : ℤ) :
    pyRound ((z : ℚ) + 1 / 2) = if z % 2 = 0 then z else z + 1 := by
  have hhalf : ⌊(1 / 2 : ℚ)⌋ = 0 := by
    rw [Int.floor_eq_zero_iff]
    constructor
    · norm_num
    · norm_num
  have hfl : ⌊(z : ℚ) + 1 / 2⌋ = z := by
    rw [add_comm, Int.floor_add_int, hhalf, zero_add]
  have hfrac : (z : ℚ) + 1 / 2 - (z : ℤ) = 1 / 2 := by
    ring
  unfold pyRound
  rw [hfl, hfrac]
  rw [if_neg (by norm_num), if_neg (by norm_num)]

/-! ## Telemetry fallback behaviour -/

/-- The telemetry of an evaluation whose every query attempt fails
(exception or non-success status on all 3 retries of all three queries). -/
def failTelemetry : EvalTelemetry :=
  ⟨fun _ => none, fun _ => none, fun _ => none⟩

theorem fetch_current_metrics_fail :
    fetch_current_metrics failTelemetry = ⟨300, 1 / 2, 0⟩ := rfl

/-- The score an evaluation stores is the objective of the metrics the
telemetry returned for it. -/
theorem mboEval_score (tele : ℕ → EvalTelemetry) (k : ℕ) (ind : MBOInd) :
    score (mboEval tele k ind) =
      objective_from_metrics (fetch_current_metrics (tele k)) hist_ranges := rfl

/-- All evaluated scores and the best score equal the fallback objective
value when every telemetry query fails. -/
def FallbackInv (s : MBOState) : Prop :=
  (∀ e ∈ s.evaluated,
      score e = objective_from_metrics ⟨300, 1 / 2, 0⟩ hist_ranges) ∧
    score s.best = objective_from_metrics ⟨300, 1 / 2, 0⟩ hist_ranges

theorem mboInit_fallback (initO : ℕ → MBOInd) :
    FallbackInv (mboInitState initO fun _ => failTelemetry) := by
  simp only [mboInitState]
  set E := (((List.range POP_SIZE).map initO).enum.map
    fun p => mboEval (fun _ => failTelemetry) p.1 p.2) with hE
  have hsc : ∀ e ∈ E, score e =
      objective_from_metrics ⟨300, 1 / 2, 0⟩ hist_ranges := by
    intro e he
    rw [hE] at he
    obtain ⟨p, _, rfl⟩ := List.mem_map.mp he
    rw [mboEval_score, fetch_current_metrics_fail]
  have hlen : E.length = POP_SIZE := by simp [hE]
  have hne : E ≠ [] := by
    intro h
    rw [h] at hlen
    simp [POP_SIZE] at hlen
  obtain ⟨hd, tl, hcons⟩ := List.exists_cons_of_ne_nil hne
  have hbest : (pyMinBy E).getD defaultRec = pyMinAux hd tl := by
    rw [hcons, pyMinBy]
    rfl
  refine ⟨hsc, ?_⟩
  rw [hbest]
  exact hsc _ (by rw [hcons]; exact pyMinAux_mem hd tl)

theorem mboGen_fallback (perturbO : ℕ → MBOChoice) {s : MBOState}
    (hne : s.evaluated ≠ []) (h : FallbackInv s) :
    FallbackInv (mboGen perturbO (fun _ => failTelemetry) s) := by
  obtain ⟨hA, hB⟩ := h
  simp only [mboGen]
  set new_eval := ((s.evaluated.enum.map
    fun p => mboPerturb (perturbO p.1) p.2.1).enum.map
      fun p => mboEval (fun _ => failTelemetry) (s.cnt + p.1) p.2) with hnev
  set combined := s.evaluated ++ new_eval with hcomb
  have hcsc : ∀ e ∈ combined, score e =
      objective_from_metrics ⟨300, 1 / 2, 0⟩ hist_ranges := by
    intro e he
    rcases List.mem_append.mp he with he' | he'
    · exact hA e he'
    · rw [hnev] at he'
      obtain ⟨p, _, rfl⟩ := List.mem_map.mp he'
      rw [mboEval_score, fetch_current_metrics_fail]
  have hkept : ∀ e ∈ (sortByScore combined).take POP_SIZE, score e =
      objective_from_metrics ⟨300, 1 / 2, 0⟩ hist_ranges := by
    intro e he
    exact hcsc e ((sortByScore_perm combined).mem_iff.mp
      ((List.take_sublist _ _).subset he))
  have hcne : combined ≠ [] := by
    intro hc
    rw [hcomb] at hc
    exact hne (List.append_eq_nil.mp hc).1
  have hkne : (sortByScore combined).take POP_SIZE ≠ [] := by
    have hslen : (sortByScore combined).length = combined.length := by
      rw [sortByScore, List.length_mergeSort]
    intro hnil
    have hlz := congrArg List.length hnil
    rw [List.length_take, hslen] at hlz
    rcases Nat.min_eq_zero_iff.mp hlz with h8 | hc
    · exact absurd h8 (by decide)
    · exact hcne (List.length_eq_zero.mp hc)
  have htop : ((sortByScore combined).take POP_SIZE).getD 0 defaultRec ∈
      (sortByScore combined).take POP_SIZE := by
    obtain ⟨hd, tl, hcons⟩ := List.exists_cons_of_ne_nil hkne
    rw [hcons, List.getD_cons_zero]
    exact List.mem_cons_self _ _
  refine ⟨hkept, ?_⟩
  split
  · exact hkept _ htop
  · exact hB

theorem mboGens_fallback (initO : ℕ → MBOInd) (perturbO : ℕ → ℕ → MBOChoice)
    (t : ℕ) :
    FallbackInv (mboGens initO perturbO (fun _ => failTelemetry) t) := by
  induction t with
  | zero => exact mboInit_fallback initO
  | succ t ih =>
    rw [mboGens_succ]
    have hne : (mboGens initO perturbO (fun _ => failTelemetry) t).evaluated ≠
        [] := by
      have hlen := (mboGens_inv initO perturbO (fun _ => failTelemetry) t).1
      intro h
      rw [h] at hlen
      simp [POP_SIZE] at hlen
    exact mboGen_fallback _ hne ih

/-- Every generation performs exactly `POP_SIZE` further evaluations:
after `t` generations the run has consumed `POP_SIZE + t * POP_SIZE`
evaluations (initial population included). -/
theorem mboGens_cnt (initO : ℕ → MBOInd) (perturbO : ℕ → ℕ → MBOChoice)
    (tele : ℕ → EvalTelemetry) (t : ℕ) :
    (mboGens initO perturbO tele t).cnt = POP_SIZE + t * POP_SIZE := by
  induction t with
  | zero => simp [mboGens, mboInitState]
  | succ t ih =>
    rw [mboGens_succ]
    have hlen := (mboGens_inv initO perturbO tele t).1
    simp only [mboGen, List.length_map, List.enum_length]
    rw [ih, hlen]
    simp only [POP_SIZE]
    omega

/-! ## Concrete oracles used by witnesses and counterexamples -/

/-- A degenerate draw stream: every uniform draw returns 1. -/
def wOnes : ℕ → ℕ → ℚ := fun _ _ => 1

/-- A degenerate DE choice stream: indices and forced dimension 0, no
crossover draws recorded (every draw reads as the default 1). -/
def wChooser : ℕ → ℕ → DEChoice := fun _ _ => ⟨0, 0, 0, 0, []⟩

/-- A valid uniform draw stream whose replicas draw (an integer-kind
dimension) is the non-integer 5/2. -/
def wCexInit : ℕ → ℕ → ℚ := fun _ j => [1, 300, 5 / 2, 1].getD j 0

/-- State after `t` generations of a DE run started from the initialized
population, reduced to the per-generation best `min(fitness)` (what the
loop prints); `none` when the run has already raised. -/
def deBest (bs : List (ℚ × ℚ)) (popSize : ℕ) (F CR : ℚ)
    (init : ℕ → ℕ → ℚ) (chooser : ℕ → ℕ → DEChoice) (t : ℕ) : Option ℚ :=
  match deGens bs popSize F CR chooser t (deInit bs popSize init) with
  | .ok s => s.fit.min?
  | .error _ => none

theorem deGens_succ (bs : List (ℚ × ℚ)) (popSize : ℕ) (F CR : ℚ)
    (chooser : ℕ → ℕ → DEChoice) (t : ℕ) (s : DEState) :
    deGens bs popSize F CR chooser (t + 1) s =
      deGens bs popSize F CR chooser t s >>=
        deGen bs popSize F CR (chooser t) := by
  simp [deGens, List.range_succ]

/-- Auxiliary equation: a successful prefix of generations determines the
printed per-generation best. -/
theorem deBest_ok {bs : List (ℚ × ℚ)} {popSize : ℕ} {F CR : ℚ}
    {init : ℕ → ℕ → ℚ} {chooser : ℕ → ℕ → DEChoice} {t : ℕ} {s : DEState}
    (hg : deGens bs popSize F CR chooser t (deInit bs popSize init) = .ok s) :
    deBest bs popSize F CR init chooser t = s.fit.min? := by
  unfold deBest
  rw [hg]

theorem deBest_err {bs : List (ℚ × ℚ)} {popSize : ℕ} {F CR : ℚ}
    {init : ℕ → ℕ → ℚ} {chooser : ℕ → ℕ → DEChoice} {t : ℕ}
    {e : String × ℕ}
    (hg : deGens bs popSize F CR chooser t (deInit bs popSize init) =
      .error e) :
    deBest bs popSize F CR init chooser t = none := by
  unfold deBest
  rw [hg]

theorem ok_bind {ε α β : Type} (a : α) (f : α → Except ε β) :
    (Except.ok a >>= f) = f a := rfl

theorem error_bind {ε α β : Type} (e : ε) (f : α → Except ε β) :
    ((Except.error e : Except ε α) >>= f) = .error e := rfl

/-- The score of the all-ones configuration under evaluate_cicd. -/
def wQ : ℚ := 2014013 / 4000

/-- The population drawn by the all-ones stream. -/
def wP4 : List (List ℚ) := [[1, 1, 1, 1], [1, 1, 1, 1], [1, 1, 1, 1], [1, 1, 1, 1]]

/-- Its fitness list. -/
def wF4 : List ℚ := [wQ, wQ, wQ, wQ]

theorem wInitEval : deInit bounds 4 wOnes = ⟨wP4, wF4, wF4⟩ := by
  norm_num [deInit, deInitPop, evaluate_cicd, bounds, wOnes, wP4, wF4, wQ,
    List.range_succ]

theorem wStepEval (i : ℕ) (hi : i < 4) (obs : List ℚ) :
    deStep bounds 4 0 0 (wChooser 0 i) i ⟨wP4, wF4, obs⟩ =
      .ok ⟨wP4, wF4, obs ++ [wQ]⟩ := by
  interval_cases i <;>
    norm_num [deStep, deTrial, deMutant, clampVec, roundInts, npClip, pyRound,
      evaluate_cicd, bounds, wChooser, wP4, wF4, wQ, List.range_succ]

theorem wGenEval : deGen bounds 4 0 0 (wChooser 0) ⟨wP4, wF4, wF4⟩ =
    .ok ⟨wP4, wF4, wF4 ++ [wQ, wQ, wQ, wQ]⟩ := by
  rw [deGen, show List.range 4 = [0, 1, 2, 3] from rfl]
  simp only [List.foldlM_cons, List.foldlM_nil,
    wStepEval 0 (by norm_num), wStepEval 1 (by norm_num),
    wStepEval 2 (by norm_num), wStepEval 3 (by norm_num), ok_bind]
  rfl

theorem wGens1 : deGens bounds 4 0 0 wChooser 1 (deInit bounds 4 wOnes) =
    .ok ⟨wP4, wF4, wF4 ++ [wQ, wQ, wQ, wQ]⟩ := by
  rw [deGens, show List.range 1 = [0] from rfl]
  simp only [List.foldlM_cons, List.foldlM_nil, wInitEval, wGenEval, ok_bind]
  rfl

theorem wMinEval : List.min? wF4 = some wQ := by
  simp [wF4, List.min?]

/-! ## Claims -/

/-- Claim C1: in both optimizer modes the best score tracked across
generations is monotonically non-increasing (for DE the per-generation
`min(fitness)`, for the local-perturbation mode the global-best record),
and the result returned at termination carries the lowest score ever
observed across all evaluated candidates of the run (the ghost `observed`
list records every score at its evaluation). -/
theorem claim_C1 :
    (∀ (bs : List (ℚ × ℚ)) (popSize : ℕ) (F CR : ℚ) (init : ℕ → ℕ → ℚ)
        (chooser : ℕ → ℕ → DEChoice) (t : ℕ) (m m' : ℚ),
      deBest bs popSize F CR init chooser t = some m →
      deBest bs popSize F CR init chooser (t + 1) = some m' → m' ≤ m) ∧
    (∀ (bs : List (ℚ × ℚ)) (maxIter popSize : ℕ) (F CR : ℚ)
        (init : ℕ → ℕ → ℚ) (chooser : ℕ → ℕ → DEChoice) (s : DEState)
        (v : List ℚ) (sc : ℚ),
      deGens bs popSize F CR chooser maxIter (deInit bs popSize init) =
        .ok s →
      differential_evolution bs maxIter popSize F CR init chooser =
        .ok (v, sc) →
      sc ∈ s.observed ∧ ∀ o ∈ s.observed, sc ≤ o) ∧
    (∀ (initO : ℕ → MBOInd) (perturbO : ℕ → ℕ → MBOChoice)
        (tele : ℕ → EvalTelemetry) (t : ℕ),
      score (mboGens initO perturbO tele (t + 1)).best ≤
        score (mboGens initO perturbO tele t).best) ∧
    (∀ (initO : ℕ → MBOInd) (perturbO : ℕ → ℕ → MBOChoice)
        (tele : ℕ → EvalTelemetry),
      score (mbo_optimize initO perturbO tele) ∈
          (mboGens initO perturbO tele MAX_ITERS).observed ∧
        ∀ o ∈ (mboGens initO perturbO tele MAX_ITERS).observed,
          score (mbo_optimize initO perturbO tele) ≤ o) := by
  refine ⟨?_, ?_, ?_, ?_⟩
  · intro bs ps F CR init chooser t m m' h1 h2
    cases hg : deGens bs ps F CR chooser t (deInit bs ps init) with
    | error e =>
      rw [deBest_err hg] at h1
      exact absurd h1 (by simp)
    | ok s =>
      rw [deBest_ok hg] at h1
      cases hg' : deGen bs ps F CR (chooser t) s with
      | error e =>
        have hg2 : deGens bs ps F CR chooser (t + 1) (deInit bs ps init) =
            .error e := by
          rw [deGens_succ, hg]
          exact hg'
        rw [deBest_err hg2] at h2
        exact absurd h2 (by simp)
      | ok s' =>
        have hg2 : deGens bs ps F CR chooser (t + 1) (deInit bs ps init) =
            .ok s' := by
          rw [deGens_succ, hg]
          exact hg'
        rw [deBest_ok hg2] at h2
        have hinv : DEInv ps s := (deGens_drel hg).1 (deInit_inv bs ps init)
        exact min?_le_of_dom ((deGen_drel hg').2 hinv) h1 h2
  · intro bs maxIter ps F CR init chooser s v sc hg hrun
    have hinv : DEInv ps s := (deGens_drel hg).1 (deInit_inv bs ps init)
    have hrun' : (match npArgmin s.fit with
        | none => (Except.error ("attempt to get argmin of an empty sequence",
            s.observed.length) : Except (String × ℕ) (List ℚ × ℚ))
        | some bi => Except.ok (s.pop.getD bi [], s.fit.getD bi 0)) =
        Except.ok (v, sc) := by
      unfold differential_evolution at hrun
      rw [hg] at hrun
      exact hrun
    cases hm : s.fit.min? with
    | none =>
      have hnone : npArgmin s.fit = none := by
        unfold npArgmin
        rw [hm]
      rw [hnone] at hrun'
      exact absurd hrun' (by simp)
    | some m =>
      obtain ⟨bi, hbi, hblt, hval⟩ := npArgmin_spec hm
      rw [hbi] at hrun'
      have hp := Except.ok.inj hrun'
      have hsc : sc = m := by
        have hsnd := congrArg Prod.snd hp
        simp only at hsnd
        rw [← hsnd, hval]
      rw [hsc]
      constructor
      · exact hinv.2.2.1 m (qmin?_mem hm)
      · intro o ho
        obtain ⟨x, hx, hxo⟩ := hinv.2.2.2 o ho
        exact le_trans (qmin?_le hm x hx) hxo
  · intro initO perturbO tele t
    rw [mboGens_succ]
    exact mboGen_best_le _ _ _
  · intro initO perturbO tele
    have hinv := mboGens_inv initO perturbO tele MAX_ITERS
    exact ⟨hinv.2.2.1, hinv.2.2.2⟩

theorem claim_C1_witness :
    deBest bounds 4 0 0 wOnes wChooser 0 = some wQ ∧
    deBest bounds 4 0 0 wOnes wChooser 1 = some wQ ∧
    wQ ≤ wQ ∧
    deGens bounds 4 0 0 wChooser 0 (deInit bounds 4 wOnes) =
      .ok (deInit bounds 4 wOnes) ∧
    differential_evolution bounds 0 4 0 0 wOnes wChooser =
      .ok ([1, 1, 1, 1], wQ) ∧
    wQ ∈ (deInit bounds 4 wOnes).observed ∧
    ∀ o ∈ (deInit bounds 4 wOnes).observed, wQ ≤ o := by
  have h4 : deGens bounds 4 0 0 wChooser 0 (deInit bounds 4 wOnes) =
      .ok (deInit bounds 4 wOnes) := rfl
  have h1 : deBest bounds 4 0 0 wOnes wChooser 0 = some wQ := by
    rw [deBest_ok h4, wInitEval]
    exact wMinEval
  have h2 : deBest bounds 4 0 0 wOnes wChooser 1 = some wQ := by
    rw [deBest_ok wGens1]
    exact wMinEval
  have hn : npArgmin (⟨wP4, wF4, wF4⟩ : DEState).fit = some 0 := by
    show npArgmin wF4 = some 0
    simp only [npArgmin, wMinEval]
    simp [wF4, List.findIdx_cons]
  have h5 : differential_evolution bounds 0 4 0 0 wOnes wChooser =
      .ok ([1, 1, 1, 1], wQ) := by
    unfold differential_evolution
    rw [h4, ok_bind, wInitEval, hn]
    simp [wP4, wF4]
  have h6 := claim_C1.2.1 bounds 0 4 0 0 wOnes wChooser
    (deInit bounds 4 wOnes) [1, 1, 1, 1] wQ h4 h5
  exact ⟨h1, h2,
    claim_C1.1 bounds 4 0 0 wOnes wChooser 0 _ _ h1 h2, h4, h5, h6.1, h6.2⟩

/-- Claim C2: in DE mode the trial replaces the incumbent at index `i`
(values and fitness entry, in place) exactly when its score is strictly
below the incumbent's; on a tie or worse score both lists are unchanged. -/
theorem claim_C2 :
    ∀ (bs : List (ℚ × ℚ)) (popSize : ℕ) (F CR : ℚ) (ch : DEChoice) (i : ℕ)
      (s s' : DEState),
      deStep bs popSize F CR ch i s = .ok s' →
      (evaluate_cicd (deTrial bs F CR ch s.pop i) < s.fit.getD i 0 →
        s'.pop = s.pop.set i (deTrial bs F CR ch s.pop i) ∧
          s'.fit = s.fit.set i (evaluate_cicd (deTrial bs F CR ch s.pop i))) ∧
      (s.fit.getD i 0 ≤ evaluate_cicd (deTrial bs F CR ch s.pop i) →
        s'.pop = s.pop ∧ s'.fit = s.fit) := by
  intro bs popSize F CR ch i s s' h
  simp only [deStep] at h
  split at h
  · exact absurd h (by simp)
  · split at h
    case isTrue hlt =>
      cases h
      exact ⟨fun _ => ⟨rfl, rfl⟩, fun hge => absurd hlt (not_lt.mpr hge)⟩
    case isFalse hge =>
      cases h
      exact ⟨fun hlt => absurd hlt hge, fun _ => ⟨rfl, rfl⟩⟩

theorem claim_C2_witness :
    deStep bounds 4 0 0 (wChooser 0 0) 0 ⟨[[1, 1, 1, 1]], [0], [0]⟩ =
      .ok ⟨[[1, 1, 1, 1]], [0], [0, wQ]⟩ ∧
    (0 : ℚ) ≤ evaluate_cicd
      (deTrial bounds 0 0 (wChooser 0 0) [[1, 1, 1, 1]] 0) ∧
    (⟨[[1, 1, 1, 1]], [0], [0, wQ]⟩ : DEState).pop = [[1, 1, 1, 1]] ∧
      (⟨[[1, 1, 1, 1]], [0], [0, wQ]⟩ : DEState).fit = [0] := by
  have hstep : deStep bounds 4 0 0 (wChooser 0 0) 0
      ⟨[[1, 1, 1, 1]], [0], [0]⟩ =
      .ok ⟨[[1, 1, 1, 1]], [0], [0, wQ]⟩ := by
    norm_num [deStep, deTrial, deMutant, clampVec, roundInts, npClip, pyRound,
      evaluate_cicd, bounds, wChooser, wQ, List.range_succ]
  have hge : ((⟨[[1, 1, 1, 1]], [0], [0]⟩ : DEState).fit.getD 0 0 : ℚ) ≤
      evaluate_cicd (deTrial bounds 0 0 (wChooser 0 0)
        (⟨[[1, 1, 1, 1]], [0], [0]⟩ : DEState).pop 0) := by
    norm_num [deTrial, deMutant, clampVec, roundInts, npClip, pyRound,
      evaluate_cicd, bounds, wChooser, List.range_succ]
  exact ⟨hstep, hge,
    (claim_C2 bounds 4 0 0 (wChooser 0 0) 0 ⟨[[1, 1, 1, 1]], [0], [0]⟩
      ⟨[[1, 1, 1, 1]], [0], [0, wQ]⟩ hstep).2 hge⟩

/-- Claim C3: each local-perturbation generation merges the current
population with its offspring, sorts ascending by score, and keeps the
first `POP_SIZE` entries; every kept score is at most every discarded
score. -/
theorem claim_C3 :
    ∀ (perturbO : ℕ → MBOChoice) (tele : ℕ → EvalTelemetry) (s : MBOState),
      (mboGen perturbO tele s).evaluated =
        (sortByScore (s.evaluated ++ ((s.evaluated.enum.map fun p =>
          mboPerturb (perturbO p.1) p.2.1).enum.map fun p =>
            mboEval tele (s.cnt + p.1) p.2))).take POP_SIZE ∧
      (mboGen perturbO tele s).evaluated.Pairwise
        (fun a b => score a ≤ score b) ∧
      ∀ x ∈ (sortByScore (s.evaluated ++ ((s.evaluated.enum.map fun p =>
          mboPerturb (perturbO p.1) p.2.1).enum.map fun p =>
            mboEval tele (s.cnt + p.1) p.2))).take POP_SIZE,
        ∀ y ∈ (sortByScore (s.evaluated ++ ((s.evaluated.enum.map fun p =>
          mboPerturb (perturbO p.1) p.2.1).enum.map fun p =>
            mboEval tele (s.cnt + p.1) p.2))).drop POP_SIZE,
          score x ≤ score y := by
  intro perturbO tele s
  refine ⟨rfl, ?_, ?_⟩
  · exact (sortByScore_pairwise _).sublist (List.take_sublist _ _)
  · set combined := s.evaluated ++ ((s.evaluated.enum.map fun p =>
      mboPerturb (perturbO p.1) p.2.1).enum.map fun p =>
        mboEval tele (s.cnt + p.1) p.2) with hcomb
    have hpw := sortByScore_pairwise combined
    rw [← List.take_append_drop POP_SIZE (sortByScore combined)] at hpw
    exact (List.pairwise_append.mp hpw).2.2

/-- Claim C4: the population size is invariant in both modes: after
initialization and after every prefix of generations the population (and
in DE mode the fitness list) has exactly the configured size. -/
theorem claim_C4 :
    (∀ (bs : List (ℚ × ℚ)) (popSize : ℕ) (F CR : ℚ) (init : ℕ → ℕ → ℚ)
        (chooser : ℕ → ℕ → DEChoice) (t : ℕ) (s : DEState),
      deGens bs popSize F CR chooser t (deInit bs popSize init) = .ok s →
      s.pop.length = popSize ∧ s.fit.length = popSize) ∧
    (∀ (initO : ℕ → MBOInd) (perturbO : ℕ → ℕ → MBOChoice)
        (tele : ℕ → EvalTelemetry) (t : ℕ),
      (mboGens initO perturbO tele t).evaluated.length = POP_SIZE) := by
  constructor
  · intro bs popSize F CR init chooser t s hg
    have hinv : DEInv popSize s :=
      (deGens_drel hg).1 (deInit_inv bs popSize init)
    exact ⟨hinv.1, hinv.2.1⟩
  · intro initO perturbO tele t
    exact (mboGens_inv initO perturbO tele t).1

theorem claim_C4_witness :
    deGens bounds 4 0 0 wChooser 1 (deInit bounds 4 wOnes) =
      .ok ⟨wP4, wF4, wF4 ++ [wQ, wQ, wQ, wQ]⟩ ∧
    (⟨wP4, wF4, wF4 ++ [wQ, wQ, wQ, wQ]⟩ : DEState).pop.length = 4 ∧
    (⟨wP4, wF4, wF4 ++ [wQ, wQ, wQ, wQ]⟩ : DEState).fit.length = 4 :=
  ⟨wGens1, claim_C4.1 bounds 4 0 0 wOnes wChooser 1 _ wGens1⟩

/-- Claim C5 counterexample: the DE initial population is drawn by
`random.uniform` on every dimension, so a generation-0 candidate can carry
the non-integer value 5/2 in the integer-kind replicas dimension and is
scored in that state (its score is in the observed list); the draws are
all within bounds, so this run is reachable. -/
theorem claim_C5_counterexample :
    ValidInit wCexInit ∧
    (deInit bounds 1 wCexInit).pop = [[1, 300, 5 / 2, 1]] ∧
    (deInit bounds 1 wCexInit).observed =
      [evaluate_cicd [1, 300, 5 / 2, 1]] ∧
    ¬∃ z : ℤ, ((deInit bounds 1 wCexInit).pop.getD 0 []).getD 2 0 =
      (z : ℚ) := by
  refine ⟨?_, ?_, ?_, ?_⟩
  · intro k j hj
    interval_cases j <;> norm_num [wCexInit, bounds]
  · norm_num [deInit, deInitPop, wCexInit, bounds, List.range_succ]
  · norm_num [deInit, deInitPop, evaluate_cicd, wCexInit, bounds,
      List.range_succ]
  · rintro ⟨z, hz⟩
    norm_num [deInit, deInitPop, wCexInit, bounds, List.range_succ] at hz
    have h5 : (5 : ℚ) = 2 * (z : ℚ) := by
      field_simp at hz
      linarith
    have h5' : (5 : ℤ) = 2 * z := by exact_mod_cast h5
    omega

/-- Claim C5 as amended: with valid uniform initial draws, every
population vector at every reachable state (hence every vector at its
scoring moment, including generation 0) lies within bounds, and every
mutated/crossed-over trial vector additionally holds integers in the
integer-kind dimensions 2 and 3; but generation-0 vectors need not have
integer values there, since initial sampling is uniform-continuous on all
dimensions (see the counterexample). -/
theorem claim_C5_amended :
    (∀ (popSize : ℕ) (init : ℕ → ℕ → ℚ), ValidInit init →
      ∀ v ∈ (deInit bounds popSize init).pop, InBounds v) ∧
    (∀ (popSize : ℕ) (F CR : ℚ) (init : ℕ → ℕ → ℚ)
        (chooser : ℕ → ℕ → DEChoice) (t : ℕ) (s : DEState),
      ValidInit init →
      deGens bounds popSize F CR chooser t (deInit bounds popSize init) =
        .ok s →
      ∀ v ∈ s.pop, InBounds v) ∧
    (∀ (F CR : ℚ) (ch : DEChoice) (pop : List (List ℚ)) (i : ℕ),
      (∀ v ∈ pop, InBounds v) → i < pop.length →
      InBounds (deTrial bounds F CR ch pop i) ∧
        (∃ z : ℤ, (deTrial bounds F CR ch pop i).getD 2 0 = (z : ℚ)) ∧
        ∃ z : ℤ, (deTrial bounds F CR ch pop i).getD 3 0 = (z : ℚ)) := by
  refine ⟨?_, ?_, ?_⟩
  · intro popSize init hvi
    exact deInit_popinb hvi popSize
  · intro popSize F CR init chooser t s hvi hg
    exact (deGens_cinv hg
      ⟨deInit_inv bounds popSize init, deInit_popinb hvi popSize⟩).2
  · intro F CR ch pop i hpop hi
    exact deTrial_inbounds F CR ch hpop hi

theorem claim_C5_amended_witness :
    (∀ v ∈ [[(1 : ℚ), 300, 5 / 2, 1]], InBounds v) ∧ 0 < 1 ∧
    InBounds (deTrial bounds 0 0 (wChooser 0 0) [[1, 300, 5 / 2, 1]] 0) ∧
    (∃ z : ℤ,
      (deTrial bounds 0 0 (wChooser 0 0) [[1, 300, 5 / 2, 1]] 0).getD 2 0 =
        (z : ℚ)) ∧
    ∃ z : ℤ,
      (deTrial bounds 0 0 (wChooser 0 0) [[1, 300, 5 / 2, 1]] 0).getD 3 0 =
        (z : ℚ) := by
  have hpop : ∀ v ∈ [[(1 : ℚ), 300, 5 / 2, 1]], InBounds v := by
    intro v hv
    rw [List.mem_singleton] at hv
    subst hv
    refine ⟨rfl, ?_⟩
    intro j hj
    interval_cases j <;> norm_num [bounds]
  have h := claim_C5_amended.2.2 0 0 (wChooser 0 0) [[1, 300, 5 / 2, 1]] 0
    hpop (by norm_num)
  exact ⟨hpop, by norm_num, h.1, h.2.1, h.2.2⟩

/-- Claim C6 counterexample: a DE run with pop_size = 3 does not fail
before any objective evaluation: the whole initial population is scored
first, and the `random.sample` ValueError is raised mid-loop, the error
recording that 3 evaluations had already been consumed when it surfaced. -/
theorem claim_C6_counterexample :
    differential_evolution bounds 1 3 (4 / 5) (7 / 10) wCexInit wChooser =
      .error ("Sample larger than population or is negative", 3) ∧
    (3 : ℕ) ≠ 0 := by
  constructor
  · have hg : deGens bounds 3 (4 / 5) (7 / 10) wChooser 1
        (deInit bounds 3 wCexInit) =
        .error ("Sample larger than population or is negative",
          (deInit bounds 3 wCexInit).observed.length) :=
      deGens_err (4 / 5) (7 / 10) wChooser (deInit bounds 3 wCexInit)
        (by norm_num) (by norm_num) (by norm_num)
    rw [deInit_observed_length] at hg
    unfold differential_evolution
    rw [hg, error_bind]
  · norm_num

/-- Claim C6 as amended: the code performs no pre-run validation; a DE run
with 1 ≤ pop_size < 4 always raises inside the first generation, after the
pop_size evaluations of the initial population have been consumed (the
error records that count), whereas a run with pop_size ≥ 4 always
completes all configured generations and returns a (values, score) pair. -/
theorem claim_C6_amended :
    (∀ (bs : List (ℚ × ℚ)) (maxIter popSize : ℕ) (F CR : ℚ)
        (init : ℕ → ℕ → ℚ) (chooser : ℕ → ℕ → DEChoice),
      0 < popSize → popSize < 4 → 0 < maxIter →
      differential_evolution bs maxIter popSize F CR init chooser =
        .error ("Sample larger than population or is negative", popSize)) ∧
    ∀ (bs : List (ℚ × ℚ)) (maxIter popSize : ℕ) (F CR : ℚ)
        (init : ℕ → ℕ → ℚ) (chooser : ℕ → ℕ → DEChoice),
      4 ≤ popSize →
      ∃ v sc, differential_evolution bs maxIter popSize F CR init chooser =
        .ok (v, sc) := by
  constructor
  · intro bs maxIter popSize F CR init chooser hps0 hps hit
    have hg : deGens bs popSize F CR chooser maxIter
        (deInit bs popSize init) =
        .error ("Sample larger than population or is negative",
          (deInit bs popSize init).observed.length) :=
      deGens_err F CR chooser (deInit bs popSize init) hit hps0 hps
    rw [deInit_observed_length] at hg
    unfold differential_evolution
    rw [hg, error_bind]
  · intro bs maxIter popSize F CR init chooser hps
    obtain ⟨s, hg⟩ : ∃ s', deGens bs popSize F CR chooser maxIter
        (deInit bs popSize init) = .ok s' :=
      deGens_ok F CR chooser _ hps
    have hinv : DEInv popSize s :=
      (deGens_drel hg).1 (deInit_inv bs popSize init)
    have hlenf := hinv.2.1
    have hfit_ne : s.fit ≠ [] := by
      intro h0
      rw [h0] at hlenf
      simp at hlenf
      omega
    obtain ⟨m, hm⟩ := qmin?_isSome hfit_ne
    obtain ⟨bi, hbi, _, _⟩ := npArgmin_spec hm
    refine ⟨s.pop.getD bi [], s.fit.getD bi 0, ?_⟩
    unfold differential_evolution
    rw [hg, ok_bind, hbi]

theorem claim_C6_amended_witness :
    (0 : ℕ) < 3 ∧ (3 : ℕ) < 4 ∧ (0 : ℕ) < 1 ∧
    differential_evolution bounds 1 3 0 0 wOnes wChooser =
      .error ("Sample larger than population or is negative", 3) ∧
    (4 : ℕ) ≤ 4 ∧
    ∃ v sc, differential_evolution bounds 1 4 0 0 wOnes wChooser =
      .ok (v, sc) := by
  refine ⟨by norm_num, by norm_num, by norm_num, ?_, by norm_num, ?_⟩
  · exact claim_C6_amended.1 bounds 1 3 0 0 wOnes wChooser (by norm_num)
      (by norm_num) (by norm_num)
  · exact claim_C6_amended.2 bounds 1 4 0 0 wOnes wChooser (by norm_num)

/-- Claim C7: when every telemetry query attempt fails, prometheus_query
returns None after its 3 retries, fetch_current_metrics falls back to the
documented defaults (build_duration 300.0, cpu 0.5, memory 0.0),
evaluation yields the fallback objective score instead of raising, and the
optimizer still completes all MAX_ITERS generations — performing every
scheduled evaluation — and returns a best configuration carrying the
fallback score. -/
theorem claim_C7 :
    prometheus_query (fun _ => none) = none ∧
    fetch_current_metrics failTelemetry =
      { build_duration := 300, cpu := 1 / 2, memory := 0 } ∧
    (∀ (initO : ℕ → MBOInd) (perturbO : ℕ → ℕ → MBOChoice),
      score (mbo_optimize initO perturbO fun _ => failTelemetry) =
        objective_from_metrics ⟨300, 1 / 2, 0⟩ hist_ranges) ∧
    ∀ (initO : ℕ → MBOInd) (perturbO : ℕ → ℕ → MBOChoice),
      (mboGens initO perturbO (fun _ => failTelemetry) MAX_ITERS).cnt =
        POP_SIZE + MAX_ITERS * POP_SIZE := by
  refine ⟨rfl, rfl, ?_, ?_⟩
  · intro initO perturbO
    exact (mboGens_fallback initO perturbO MAX_ITERS).2
  · intro initO perturbO
    exact mboGens_cnt initO perturbO _ MAX_ITERS

/-- Claim C8: normalize returns 0 when lo = hi; otherwise it returns 0 at
v = lo and 1 at v = hi; and for lo < hi it is monotone non-decreasing in
v (so it extrapolates linearly outside the range). -/
theorem claim_C8 :
    ∀ lo hi : ℚ,
      (∀ v : ℚ, lo = hi → normalize v lo hi = 0) ∧
      (lo ≠ hi → normalize lo lo hi = 0 ∧ normalize hi lo hi = 1) ∧
      (lo < hi → ∀ v1 v2 : ℚ, v1 ≤ v2 →
        normalize v1 lo hi ≤ normalize v2 lo hi) := by
  intro lo hi
  refine ⟨?_, ?_, ?_⟩
  · intro v h
    rw [normalize, if_pos h.symm]
  · intro h
    have hne : hi ≠ lo := Ne.symm h
    constructor
    · rw [normalize, if_neg hne]
      simp
    · rw [normalize, if_neg hne]
      exact div_self (sub_ne_zero.mpr hne)
  · intro hlt v1 v2 hv
    have hne : hi ≠ lo := ne_of_gt hlt
    have hpos : 0 < hi - lo := sub_pos.mpr hlt
    rw [normalize, normalize, if_neg hne, if_neg hne]
    exact (div_le_div_iff_of_pos_right hpos).mpr (sub_le_sub_right hv lo)

theorem claim_C8_witness :
    normalize 3 3 3 = 0 ∧ (1 : ℚ) ≠ 2 ∧ normalize 1 1 2 = 0 ∧
    normalize 2 1 2 = 1 ∧ (1 : ℚ) < 2 ∧ (0 : ℚ) ≤ 1 ∧
    normalize 0 1 2 ≤ normalize 1 1 2 := by
  refine ⟨(claim_C8 3 3).1 3 rfl, by norm_num, ?_, ?_, by norm_num,
    by norm_num, ?_⟩
  · exact ((claim_C8 1 2).2.1 (by norm_num)).1
  · exact ((claim_C8 1 2).2.1 (by norm_num)).2
  · exact (claim_C8 1 2).2.2 (by norm_num) 0 1 (by norm_num)

/-- Claim C9: the clamp operations are total functions of their value
vectors and idempotent when every descriptor is ordered: the DE np.clip
pass over the bounds list, and the three MBO SPACE clamps (whose bounds
are ordered constants). -/
theorem claim_C9 :
    (∀ (bs : List (ℚ × ℚ)) (v : List ℚ), (∀ p ∈ bs, p.1 ≤ p.2) →
      clampVec bs (clampVec bs v) = clampVec bs v) ∧
    (∀ x : ℤ, mboClampReplicas (mboClampReplicas x) = mboClampReplicas x) ∧
    (∀ x : ℚ, mboClampCpu (mboClampCpu x) = mboClampCpu x) ∧
    ∀ x : ℤ, mboClampConcurrency (mboClampConcurrency x) =
      mboClampConcurrency x := by
  refine ⟨?_, ?_, ?_, ?_⟩
  · intro bs v hord
    apply List.ext_getElem
    · simp [clampVec]
    · intro j h1 h2
      have hjb : j < bs.length := by simpa [clampVec] using h2
      simp only [clampVec, List.getElem_map, List.getElem_range]
      rw [getD_map_range _ 0 hjb]
      have hp : (bs.getD j (0, 0)).1 ≤ (bs.getD j (0, 0)).2 := by
        rw [getD_of_lt bs (0, 0) hjb]
        exact hord _ (List.getElem_mem hjb)
      exact npClip_idem _ _ _ hp
  · intro x
    simp only [mboClampReplicas, SPACE_replicas]
    omega
  · intro x
    simp only [mboClampCpu, SPACE_cpu]
    have h1 : max (1 / 10 : ℚ) (min (1 / 2) x) ≤ 1 / 2 :=
      max_le (by norm_num) (min_le_left _ _)
    have h2 : (1 / 10 : ℚ) ≤ max (1 / 10) (min (1 / 2) x) := le_max_left _ _
    rw [min_eq_right h1, max_eq_right h2]
  · intro x
    simp only [mboClampConcurrency, SPACE_concurrency]
    omega

theorem claim_C9_witness :
    (∀ p ∈ bounds, p.1 ≤ p.2) ∧
    clampVec bounds (clampVec bounds [5, 5000, 0, 9]) =
      clampVec bounds [5, 5000, 0, 9] := by
  have hord : ∀ p ∈ bounds, p.1 ≤ p.2 := by
    intro p hp
    simp only [bounds, List.mem_cons, List.not_mem_nil, or_false] at hp
    rcases hp with rfl | rfl | rfl | rfl <;> norm_num
  exact ⟨hord, claim_C9.1 bounds [5, 5000, 0, 9] hord⟩

/-- Claim C10: the rounding applied to the integer-kind trial dimensions 2
and 3 has Python round-half-to-even semantics: a trial value exactly
midway between two integers rounds to the even neighbour, not to the value
of larger magnitude. -/
theorem claim_C10 :
    ∀ (z2 z3 : ℤ) (t : List ℚ), t.length = 4 →
      t.getD 2 0 = (z2 : ℚ) + 1 / 2 → t.getD 3 0 = (z3 : ℚ) + 1 / 2 →
      ((roundInts t).getD 2 0 =
          ((if z2 % 2 = 0 then z2 else z2 + 1 : ℤ) : ℚ) ∧
        (if z2 % 2 = 0 then z2 else z2 + 1) % 2 = 0) ∧
      (roundInts t).getD 3 0 =
          ((if z3 % 2 = 0 then z3 else z3 + 1 : ℤ) : ℚ) ∧
        (if z3 % 2 = 0 then z3 else z3 + 1) % 2 = 0 := by
  intro z2 z3 t hlen h2 h3
  have heven : ∀ z : ℤ, (if z % 2 = 0 then z else z + 1) % 2 = 0 := by
    intro z
    by_cases h : z % 2 = 0
    · rw [if_pos h]
      exact h
    · rw [if_neg h]
      omega
  refine ⟨⟨?_, heven z2⟩, ?_, heven z3⟩
  · rw [roundInts_getD2 t (by omega), h2, pyRound_half]
  · rw [roundInts_getD3 t (by omega), h3, pyRound_half]

theorem claim_C10_witness :
    ([0, 0, 5 / 2, 7 / 2] : List ℚ).length = 4 ∧
    ([0, 0, 5 / 2, 7 / 2] : List ℚ).getD 2 0 = ((2 : ℤ) : ℚ) + 1 / 2 ∧
    ([0, 0, 5 / 2, 7 / 2] : List ℚ).getD 3 0 = ((3 : ℤ) : ℚ) + 1 / 2 ∧
    ((roundInts [0, 0, 5 / 2, 7 / 2]).getD 2 0 =
        (Int.cast (if (2 : ℤ) % 2 = 0 then (2 : ℤ) else (2 : ℤ) + 1) : ℚ) ∧
      (if (2 : ℤ) % 2 = 0 then (2 : ℤ) else (2 : ℤ) + 1) % 2 = 0) ∧
    (roundInts [0, 0, 5 / 2, 7 / 2]).getD 3 0 =
        (Int.cast (if (3 : ℤ) % 2 = 0 then (3 : ℤ) else (3 : ℤ) + 1) : ℚ) ∧
      (if (3 : ℤ) % 2 = 0 then (3 : ℤ) else (3 : ℤ) + 1) % 2 = 0 := by
  have hl : ([0, 0, 5 / 2, 7 / 2] : List ℚ).length = 4 := by norm_num
  have h2 : ([0, 0, 5 / 2, 7 / 2] : List ℚ).getD 2 0 =
      ((2 : ℤ) : ℚ) + 1 / 2 := by
    push_cast
    norm_num
  have h3 : ([0, 0, 5 / 2, 7 / 2] : List ℚ).getD 3 0 =
      ((3 : ℤ) : ℚ) + 1 / 2 := by
    push_cast
    norm_num
  exact ⟨hl, h2, h3, claim_C10 2 3 [0, 0, 5 / 2, 7 / 2] hl h2 h3⟩

end EcoCI
